import Mathlib

/-!
Verification of the timing-report heuristic analyzer of the `ipo0agent`
repository.  The analyzer is the function `analyzePath` of the timing-analysis
page: it maps the raw report text to an `AnalysisResult` record using a fixed
catalog of pattern rules.  Below, the JavaScript string/regex operations used
by `analyzePath` are embedded as executable Lean functions on `List Char`
(JavaScript regexes are modelled by direct scanning functions with the same
leftmost-match, greedy/lazy and backtracking behaviour as the concrete
patterns in the source), and the claims about the analyzer are settled as
theorems about this embedding.
-/

set_option maxRecDepth 100000

namespace Ipo0

/-! ### Character classes (JavaScript semantics) -/

/-- JavaScript `\s`: the WhiteSpace and LineTerminator code points. -/
def isJsWs (c : Char) : Bool :=
  let n := c.toNat
  (decide (9 ≤ n) && decide (n ≤ 13)) || decide (n = 32) || decide (n = 160) ||
  decide (n = 0x1680) || (decide (0x2000 ≤ n) && decide (n ≤ 0x200A)) ||
  decide (n = 0x2028) || decide (n = 0x2029) || decide (n = 0x202F) ||
  decide (n = 0x205F) || decide (n = 0x3000) || decide (n = 0xFEFF)

/-- The code points that JavaScript `.` (without the `s` flag) does not match. -/
def isLineTerm (c : Char) : Bool :=
  let n := c.toNat
  decide (n = 10) || decide (n = 13) || decide (n = 0x2028) || decide (n = 0x2029)

/-- JavaScript `.` (no `s` flag): any character except a line terminator. -/
def isDotChar (c : Char) : Bool := !isLineTerm c

/-- The regex class `[A-Z0-9_]` used for cell names. -/
def isCellChar (c : Char) : Bool :=
  (decide (65 ≤ c.toNat) && decide (c.toNat ≤ 90)) ||
  (decide (48 ≤ c.toNat) && decide (c.toNat ≤ 57)) || decide (c.toNat = 95)

/-- An ASCII lowercase letter (used to state what the cell-name class
excludes). -/
def isLowerAlpha (c : Char) : Bool :=
  decide (97 ≤ c.toNat) && decide (c.toNat ≤ 122)

/-- The regex class `[-\d.]` used for the slack value. -/
def isSlackChar (c : Char) : Bool := c == '-' || c == '.' || c.isDigit

/-- Case-insensitive character comparison as used by the `i` regex flag
(only ASCII letters fold, which matches JavaScript canonicalisation for the
ASCII pattern literals appearing in the source). -/
def ciEqC (a b : Char) : Bool := a.toLower == b.toLower

/-- Case-sensitive character comparison. -/
def csEqC (a b : Char) : Bool := a == b

/-! ### Literal matching and substring search -/

/-- Match the literal `pat` (under character comparison `eqf`) as a prefix of
the input; return the consumed input characters and the rest. -/
def matchTok (eqf : Char → Char → Bool) : List Char → List Char → Option (List Char × List Char)
  | [], l => some ([], l)
  | _ :: _, [] => none
  | p :: ps, c :: cs =>
    if eqf p c then (matchTok eqf ps cs).map (fun x => (c :: x.1, x.2)) else none

/-- Substring test: does `pat` occur (under `eqf`) anywhere in the input?
This models both `String.prototype.includes` (with `eqf = csEqC`) and a
`test` of a regex consisting of a literal (with `eqf = ciEqC` for the `i`
flag). -/
def inclTok (eqf : Char → Char → Bool) (pat : List Char) : List Char → Bool
  | [] => (matchTok eqf pat []).isSome
  | l@(_ :: t) => (matchTok eqf pat l).isSome || inclTok eqf pat t

/-- `String.prototype.includes` on the underlying character lists. -/
def jsIncludes (s sub : String) : Bool := inclTok csEqC sub.data s.data

/-- Case-insensitive substring occurrence (a literal regex with the `i` flag). -/
def jsIncludesCI (s sub : String) : Bool := inclTok ciEqC sub.data s.data

/-! ### `parseFloat` and the JavaScript number results it can produce -/

/-- The JavaScript number values produced by `parseFloat` in this program:
`NaN`, a signed infinity, or a finite value (modelled exactly as a rational,
the inputs being short decimal literals). -/
inductive JsNum where
  | nan : JsNum
  | inf : Bool → JsNum
  | num : Rat → JsNum
deriving DecidableEq

/-- Digits to a natural number. -/
def digitsToNat (l : List Char) : Nat :=
  l.foldl (fun acc c => acc * 10 + (c.toNat - 48)) 0

/-- `parseFloat`: skip leading whitespace, read an optional sign, then either
`Infinity` or a decimal literal (digits, optional fraction, optional
exponent); `NaN` when no number prefix exists. -/
def jsParseFloat (l : List Char) : JsNum :=
  let l1 := l.dropWhile isJsWs
  let signNeg : Bool := l1.head? == some '-'
  let l2 := if l1.head? == some '-' || l1.head? == some '+' then l1.tail else l1
  match matchTok csEqC "Infinity".data l2 with
  | some _ => JsNum.inf signNeg
  | none =>
    let intPart := l2.takeWhile Char.isDigit
    let r1 := l2.dropWhile Char.isDigit
    let fracPart := if r1.head? == some '.' then r1.tail.takeWhile Char.isDigit else []
    let r2 := if r1.head? == some '.' then r1.tail.dropWhile Char.isDigit else r1
    if intPart = [] && fracPart = [] then JsNum.nan
    else
      let expPart : Int :=
        match r2 with
        | 'e' :: r3 => jsExp r3
        | 'E' :: r3 => jsExp r3
        | _ => 0
      let mant : Nat := digitsToNat intPart * 10 ^ fracPart.length + digitsToNat fracPart
      let signedMant : Int := if signNeg then -(Int.ofNat mant) else Int.ofNat mant
      let numerator : Int := signedMant * Int.ofNat (10 ^ expPart.toNat)
      let denominator : Nat := 10 ^ (fracPart.length + (-expPart).toNat)
      JsNum.num (mkRat numerator denominator)
where
  /-- Exponent part after `e`/`E`: optional sign then digits; `0` when the
  exponent is absent or malformed (it is then not part of the parsed prefix,
  and does not change the value). -/
  jsExp (r : List Char) : Int :=
    let sign : Int := if r.head? == some '-' then -1 else 1
    let r4 := if r.head? == some '-' || r.head? == some '+' then r.tail else r
    let ds := r4.takeWhile Char.isDigit
    if ds = [] then 0 else sign * (digitsToNat ds : Int)

/-! ### The two slack regexes

`/slack\s+\((MET|VIOLATED)\)\s+([-\d.]+)/i` and
`/([-\d.]+)\s+slack\s+\((MET|VIOLATED)\)/i`.  In both patterns every
quantified class is followed by a token from a disjoint class, so the
backtracking search of the JavaScript engine is equivalent to maximal-munch
scanning at each candidate start position, taken leftmost first. -/

/-- Try `(MET|VIOLATED)` case-insensitively; return the consumed input text
and the rest.  The alternatives begin with distinct letters, so the
alternation is deterministic. -/
def matchStatus (l : List Char) : Option (List Char × List Char) :=
  match matchTok ciEqC "MET".data l with
  | some (m, r) => some (m, r)
  | none => matchTok ciEqC "VIOLATED".data l

/-- Attempt `slack\s+\((MET|VIOLATED)\)\s+([-\d.]+)` at the head of `l`;
return (group 1, group 2) = (status text, value text). -/
def slackLayout1At (l : List Char) : Option (List Char × List Char) :=
  match matchTok ciEqC "slack".data l with
  | none => none
  | some (_, r1) =>
    let w1 := r1.takeWhile isJsWs
    let r2 := r1.dropWhile isJsWs
    if w1 = [] then none else
    match r2 with
    | '(' :: r3 =>
      match matchStatus r3 with
      | none => none
      | some (st, r4) =>
        match r4 with
        | ')' :: r5 =>
          let w2 := r5.takeWhile isJsWs
          let r6 := r5.dropWhile isJsWs
          if w2 = [] then none else
          let v := r6.takeWhile isSlackChar
          if v = [] then none else some (st, v)
        | _ => none
    | _ => none

/-- Attempt `([-\d.]+)\s+slack\s+\((MET|VIOLATED)\)` at the head of `l`;
return (group 1, group 2) = (value text, status text). -/
def slackLayout2At (l : List Char) : Option (List Char × List Char) :=
  let v := l.takeWhile isSlackChar
  let r1 := l.dropWhile isSlackChar
  if v = [] then none else
  let w1 := r1.takeWhile isJsWs
  let r2 := r1.dropWhile isJsWs
  if w1 = [] then none else
  match matchTok ciEqC "slack".data r2 with
  | none => none
  | some (_, r3) =>
    let w2 := r3.takeWhile isJsWs
    let r4 := r3.dropWhile isJsWs
    if w2 = [] then none else
    match r4 with
    | '(' :: r5 =>
      match matchStatus r5 with
      | none => none
      | some (st, r6) =>
        match r6 with
        | ')' :: _ => some (v, st)
        | _ => none
    | _ => none

/-- Leftmost match of the first slack layout over the whole text. -/
def findSlack1 : List Char → Option (List Char × List Char)
  | [] => slackLayout1At []
  | l@(_ :: t) =>
    match slackLayout1At l with
    | some g => some g
    | none => findSlack1 t

/-- Leftmost match of the second slack layout over the whole text. -/
def findSlack2 : List Char → Option (List Char × List Char)
  | [] => slackLayout2At []
  | l@(_ :: t) =>
    match slackLayout2At l with
    | some g => some g
    | none => findSlack2 t

/-- `slackMatch[2] || slackMatch[1]`: JavaScript picks the second capture
group when it is a non-empty string, else the first. -/
def pickGroup (g1 g2 : List Char) : List Char := if g2 = [] then g1 else g2

/-- The `slack` field: try the first layout on the whole text, then the
second; feed `match[2] || match[1]` to `parseFloat`; `null` (`none`) when
neither layout matches anywhere. -/
def slackOf (l : List Char) : Option JsNum :=
  match findSlack1 l with
  | some (g1, g2) => some (jsParseFloat (pickGroup g1 g2))
  | none =>
    match findSlack2 l with
    | some (g1, g2) => some (jsParseFloat (pickGroup g1 g2))
    | none => none

/-! ### The label regexes

`/Startpoint:\s+(.+?)(?:\s+\(|$)/i` and its `Beginpoint:`/`Endpoint:`
analogues.  Here the lazy group interacts with backtracking of the greedy
`\s+`, so the model spells out the exact exploration order of the
JavaScript engine: start positions leftmost first; at a position, the
whitespace run longest first; for each whitespace run, the lazy group
shortest first; for each group, the `\s+\(` branch of the tail alternation
before the `$` branch (`$` without the `m` flag is end of input only). -/

/-- The tail alternation `(?:\s+\(|$)` at a given input position.  Inside the
first branch the greedy `\s+` is followed by the disjoint `\(`, so that
branch succeeds exactly when the maximal whitespace run is non-empty and is
followed by `(`. -/
def labelTermAt (l : List Char) : Bool :=
  match l with
  | [] => true
  | _ =>
    let w := l.takeWhile isJsWs
    let r := l.dropWhile isJsWs
    !(w = []) && r.head? == some '('

/-- Expansion of the lazy group `(.+?)`: consume one `.`-character at a time
(shortest first) and stop at the first position where the tail alternation
matches; `gacc` holds the consumed characters in reverse. -/
def labelGScan (gacc : List Char) : List Char → Option (List Char)
  | [] => none
  | c :: rest =>
    if isDotChar c then
      if labelTermAt rest then some ((c :: gacc).reverse)
      else labelGScan (c :: gacc) rest
    else none

/-- Backtracking of the greedy `\s+`: `wsRev` is the current whitespace run
in reverse; on failure of the group scan the run is shortened by one
character (which is then offered to the lazy group), but never below one. -/
def labelWScan : List Char → List Char → Option (List Char)
  | [], gRegion => labelGScan [] gRegion
  | [_], gRegion => labelGScan [] gRegion
  | w :: ws, gRegion =>
    match labelGScan [] gRegion with
    | some g => some g
    | none => labelWScan ws (w :: gRegion)

/-- The part of the label regex after the label: the greedy `\s+` (tried
longest first) followed by the lazy group and the tail alternation. -/
def labelAfter (r : List Char) : Option (List Char) :=
  if r.takeWhile isJsWs = [] then none
  else labelWScan (r.takeWhile isJsWs).reverse (r.dropWhile isJsWs)

/-- Attempt `LABEL\s+(.+?)(?:\s+\(|$)` at the head of `l` (case-insensitive
label); return the text of the capture group. -/
def labelAt (lab : List Char) (l : List Char) : Option (List Char) :=
  (matchTok ciEqC lab l).bind (fun x => labelAfter x.2)

/-- Leftmost match of the label regex over the whole text. -/
def findLabel (lab : List Char) : List Char → Option (List Char)
  | [] => labelAt lab []
  | l@(_ :: t) =>
    match labelAt lab l with
    | some g => some g
    | none => findLabel lab t

/-- `String.prototype.trim`: strip the JavaScript whitespace set from both
ends. -/
def jsTrim (l : List Char) : List Char :=
  ((l.dropWhile isJsWs).reverse.dropWhile isJsWs).reverse

/-- The `startpoint` field: `Startpoint:` first, `Beginpoint:` only when the
first regex matches nowhere, `"Unknown"` when both fail; the group is
trimmed. -/
def startpointOf (l : List Char) : String :=
  match findLabel "Startpoint:".data l with
  | some g => String.mk (jsTrim g)
  | none =>
    match findLabel "Beginpoint:".data l with
    | some g => String.mk (jsTrim g)
    | none => "Unknown"

/-- The `endpoint` field. -/
def endpointOf (l : List Char) : String :=
  match findLabel "Endpoint:".data l with
  | some g => String.mk (jsTrim g)
  | none => "Unknown"

/-! ### The cell regexes

The global scan `path.match(/\/Y\s+\(([A-Z0-9_]+)\)/g)` collects the full
text of every non-overlapping leftmost match; each match string is then
re-matched against `/\(([A-Z0-9_]+)\)/` to extract the cell name, the
source substituting `""` when that inner match fails. -/

/-- Attempt `\/Y\s+\(([A-Z0-9_]+)\)` at the head of `l`; on success return
(full match text, capture group, rest of the input).  Both quantified
classes are followed by tokens from disjoint classes, so maximal munch is
exact. -/
def matchYCell (l : List Char) : Option (List Char × List Char × List Char) :=
  match l with
  | '/' :: 'Y' :: rest =>
    let w := rest.takeWhile isJsWs
    let r2 := rest.dropWhile isJsWs
    if w = [] then none else
    match r2 with
    | '(' :: r3 =>
      let nm := r3.takeWhile isCellChar
      let r4 := r3.dropWhile isCellChar
      if nm = [] then none else
      match r4 with
      | ')' :: r5 => some ('/' :: 'Y' :: (w ++ '(' :: (nm ++ [')'])), nm, r5)
      | _ => none
    | _ => none
  | _ => none

/-- The global match, written with explicit fuel so that it is structurally
recursive (and hence evaluates inside the kernel): after a match continue
right after it, after a failing position advance one character.  Every step
consumes at least one character, so `l.length` fuel always suffices; the
lemma `extractYCellGo_fuel` below proves the fuel irrelevant. -/
def extractYCellGo : Nat → List Char → List String
  | 0, _ => []
  | fuel + 1, l =>
    match matchYCell l with
    | some (m, _, r) => String.mk m :: extractYCellGo fuel r
    | none =>
      match l with
      | [] => []
      | _ :: t => extractYCellGo fuel t

/-- The global match `path.match(/\/Y\s+\(([A-Z0-9_]+)\)/g)`: the list of
full match texts, leftmost, non-overlapping. -/
def extractYCellMatches (l : List Char) : List String := extractYCellGo l.length l

/-- Count, over every suffix of the text, the positions at which the cell
regex matches.  Because no match can begin strictly inside another match,
this equals the number of matches of the global scan (proved below). -/
def countYCellStarts : List Char → Nat
  | [] => 0
  | l@(_ :: t) => (if (matchYCell l).isSome then 1 else 0) + countYCellStarts t

/-- Attempt `\(([A-Z0-9_]+)\)` at the head of `l`. -/
def parenGroupAt (l : List Char) : Option (List Char) :=
  match l with
  | '(' :: r =>
    let nm := r.takeWhile isCellChar
    let r2 := r.dropWhile isCellChar
    if nm = [] then none else
    match r2 with
    | ')' :: _ => some nm
    | _ => none
  | _ => none

/-- Leftmost match of `\(([A-Z0-9_]+)\)`. -/
def findParenGroup : List Char → Option (List Char)
  | [] => none
  | l@(_ :: t) =>
    match parenGroupAt l with
    | some g => some g
    | none => findParenGroup t

/-- `cellMatch ? cellMatch[1] : ""`: the name extracted from one full match
string of the global scan. -/
def cellNameOf (m : String) : String :=
  match findParenGroup m.data with
  | some nm => String.mk nm
  | none => ""

/-! ### Base cell names and the cell-type count -/

/-- Does `X\d+_[A-Z]+$` match at the head of `l` (consuming all of `l`)?
The trailing `$` forces the final uppercase run to reach the end of the
string. -/
def xSuffixAt (l : List Char) : Bool :=
  match l with
  | 'X' :: r =>
    let d := r.takeWhile Char.isDigit
    let r2 := r.dropWhile Char.isDigit
    if d = [] then false else
    match r2 with
    | '_' :: r3 =>
      let u := r3.takeWhile Char.isUpper
      let r4 := r3.dropWhile Char.isUpper
      !u.isEmpty && r4.isEmpty
    | _ => false
  | _ => false

/-- `cell.replace(/X\d+_[A-Z]+$/, '')`: delete from the leftmost position at
which the anchored suffix pattern matches; keep everything when it matches
nowhere. -/
def baseCellAux : List Char → List Char
  | [] => []
  | c :: r => if xSuffixAt (c :: r) then [] else c :: baseCellAux r

/-- The base cell family name (size/voltage-variant suffix stripped). -/
def baseCell (cell : String) : String := String.mk (baseCellAux cell.data)

/-- One step of `acc[baseCell] = (acc[baseCell] || 0) + 1` on a plain object,
modelled as an association list keyed in insertion order. -/
def bump : List (String × Nat) → String → List (String × Nat)
  | [], k => [(k, 1)]
  | (a, n) :: t, k => if a = k then (a, n + 1) :: t else (a, n) :: bump t k

/-- The `reduce` building `cellCounts` from the extracted cell list. -/
def cellCountsFold : List (String × Nat) → List String → List (String × Nat)
  | acc, [] => acc
  | acc, c :: cs => cellCountsFold (bump acc (baseCell c)) cs

/-! ### The pattern catalog and the result type -/

/-- One entry of the `issues` list. -/
structure AnalysisIssue where
  issue : String
  suggestions : List String
deriving DecidableEq

/-- One rule of the pattern catalog: a regex test over the whole text, the
issue label, and the remediation suggestions. -/
structure TimingIssueRule where
  test : List Char → Bool
  issue : String
  suggestions : List String

/-- The fixed catalog `timingIssues` of the source, in order.  Rules 1, 2, 4
and 5 are case-insensitive literal patterns; rule 3 is the case-sensitive
alternation `(INVX0|NAND2X0|NOR2X0|BUFX0)_RVT`, equivalent to the presence
of one of the four concatenated names. -/
def timingIssues : List TimingIssueRule := [
  ⟨fun l => inclTok ciEqC "slack (VIOLATED)".data l,
   "Timing violation detected",
   ["Consider upsizing critical cells in the path",
    "Optimize logic depth to reduce delay",
    "Check for high fanout nets and buffer them",
    "Review clock skew between source and destination"]⟩,
  ⟨fun l => inclTok ciEqC "high fanout".data l,
   "High fanout net detected",
   ["Add buffers to distribute the load",
    "Consider register duplication for critical paths",
    "Use higher drive strength cells for the driver"]⟩,
  ⟨fun l => inclTok csEqC "INVX0_RVT".data l || inclTok csEqC "NAND2X0_RVT".data l ||
            inclTok csEqC "NOR2X0_RVT".data l || inclTok csEqC "BUFX0_RVT".data l,
   "Low drive strength cells in critical path",
   ["Upsize cells to higher drive strength variants",
    "Replace X0 cells with X1 or X2 variants",
    "Consider using faster cell types (e.g., RVT to LVT)"]⟩,
  ⟨fun l => inclTok ciEqC "clock uncertainty".data l,
   "Clock uncertainty affecting timing",
   ["Review clock tree synthesis settings",
    "Check for excessive clock jitter or skew",
    "Consider using more balanced clock tree"]⟩,
  ⟨fun l => inclTok ciEqC "long path".data l,
   "Long logic path detected",
   ["Consider logic restructuring to reduce depth",
    "Add pipeline registers to break long paths",
    "Review synthesis constraints for the path"]⟩ ]

/-- The issue entry contributed by a matching rule. -/
def ruleEntry (r : TimingIssueRule) : AnalysisIssue := ⟨r.issue, r.suggestions⟩

/-- The generic fallback issue pushed when a violation is detected but no
catalog rule matched. -/
def genericViolationIssue : AnalysisIssue :=
  ⟨"Timing violation detected",
   ["Analyze the critical path for high delay cells",
    "Check for long interconnect delays",
    "Review clock constraints and clock tree synthesis",
    "Consider architectural changes to reduce logic depth"]⟩

/-- The issue pushed by the logic-depth check. -/
def longPathIssue : AnalysisIssue :=
  ⟨"Long logic path detected",
   ["Add pipeline registers to break the path",
    "Restructure logic to reduce depth",
    "Review synthesis constraints"]⟩

/-- The advisory string set when the logic depth exceeds 8. -/
def highDepthMsg : String :=
  "High logic depth detected. Consider restructuring logic or adding pipeline stages."

/-- The output record of the analyzer. -/
structure AnalysisResult where
  hasViolation : Bool
  slack : Option JsNum
  startpoint : String
  endpoint : String
  issues : List AnalysisIssue
  logicDepth : Nat
  depthAnalysis : String
  cellTypes : Nat
deriving DecidableEq

/-! ### The analyzer pipeline -/

/-- `path.includes('VIOLATED') || path.includes('slack (VIOLATED)') ||
(path.includes('slack') && path.includes('-'))`. -/
def hasViolationOf (l : List Char) : Bool :=
  inclTok csEqC "VIOLATED".data l || inclTok csEqC "slack (VIOLATED)".data l ||
  (inclTok csEqC "slack".data l && inclTok csEqC "-".data l)

/-- The issue entries of the matching catalog rules, in catalog order. -/
def baseIssuesOf (l : List Char) : List AnalysisIssue :=
  (timingIssues.filter (fun r => r.test l)).map ruleEntry

/-- The issue list after the generic-fallback step. -/
def issuesViolOf (l : List Char) : List AnalysisIssue :=
  if hasViolationOf l && (baseIssuesOf l).length == 0 then
    baseIssuesOf l ++ [genericViolationIssue]
  else baseIssuesOf l

/-- The full-match strings of the global cell scan. -/
def cellsMatchOf (l : List Char) : List String := extractYCellMatches l

/-- The extracted cell names, duplicates retained, in order. -/
def cellsOf (l : List Char) : List String := (cellsMatchOf l).map cellNameOf

/-- The `cellCounts` object. -/
def cellCountsOf (l : List Char) : List (String × Nat) := cellCountsFold [] (cellsOf l)

/-- `logicDepth = cells.length`. -/
def logicDepthOf (l : List Char) : Nat := (cellsOf l).length

/-- `depthAnalysis`: the advisory string, set only when the depth exceeds 8. -/
def depthAnalysisOf (l : List Char) : String :=
  if logicDepthOf l > 8 then highDepthMsg else ""

/-- The issue list after the depth check: when the depth exceeds 8 and no
present issue label includes "Long logic path", push the long-path issue. -/
def issuesOf (l : List Char) : List AnalysisIssue :=
  if logicDepthOf l > 8 then
    (if (issuesViolOf l).any (fun i => jsIncludes i.issue "Long logic path") then issuesViolOf l
     else issuesViolOf l ++ [longPathIssue])
  else issuesViolOf l

/-- `cellTypes = Object.keys(cellCounts).length`. -/
def cellTypesOf (l : List Char) : Nat := (cellCountsOf l).length

/-- The analyzer `analyzePath` of the timing-analysis page. -/
def analyzePath (path : String) : AnalysisResult :=
  ⟨hasViolationOf path.data, slackOf path.data, startpointOf path.data,
   endpointOf path.data, issuesOf path.data, logicDepthOf path.data,
   depthAnalysisOf path.data, cellTypesOf path.data⟩

/-- The fixed mock Cadence-style report of `talosApi.getMockTimingData`
(the argument is ignored by the source as well). -/
def getMockTimingData (_filePath : String) : String :=
  String.intercalate "\n" [
    "Path 1: VIOLATED Setup Check with Pin core/memory_controller/addr_reg[12]/D ",
    "Endpoint:   core/memory_controller/addr_reg[12]/D (^) checked with leading edge of \x27CLK\x27",
    "Beginpoint: core/register_file/register_memory_reg[7][12]/Q (^) triggered by leading edge of \x27CLK\x27",
    "Path Group: CLK ",
    "Path Type: max ",
    "",
    "Delay      Time   Description",
    "------------------------------------------------------------------------------------",
    "0.000      0.000  clock CLK (rise edge)",
    "0.412      0.412  clock network delay (ideal)",
    "0.000      0.412  core/register_file/register_memory_reg[7][12]/CLK (DFFX1_RVT)",
    "0.187      0.599  core/register_file/register_memory_reg[7][12]/Q (DFFX1_RVT)",
    "0.104      0.703  core/register_file/U2134/Y (INVX0_RVT)",
    "0.132      0.835  core/register_file/U3567/Y (NAND2X0_RVT)",
    "0.095      0.930  core/memory_controller/U456/Y (AOI22X1_RVT)",
    "0.112      1.042  core/memory_controller/U789/Y (OAI21X1_RVT)",
    "0.087      1.129  core/memory_controller/U1023/Y (INVX0_RVT)",
    "0.143      1.272  core/memory_controller/U1567/Y (AO22X1_RVT)",
    "0.000      1.272  core/memory_controller/addr_reg[12]/D (DFFX1_RVT)",
    "1.272      1.272  data arrival time",
    "",
    "1.000      1.000  clock CLK (rise edge)",
    "0.412      1.412  clock network delay (ideal)",
    "-0.050     1.362  clock uncertainty",
    "-0.135     1.227  library setup time",
    "1.227      1.227  data required time",
    "------------------------------------------------------------------------------------",
    "1.227      1.227  data required time",
    "-1.272     -1.272 data arrival time",
    "------------------------------------------------------------------------------------",
    "-0.045     -0.045 slack (VIOLATED)"
  ]

/-! ### Definitions following the words of the specification

These are not translations of the source; they state what the spec/claims
say, so that code behaviour and claimed behaviour can be compared. -/

/-- Does a negative-number token (a `-` immediately followed by a digit,
possibly with a decimal point) occur at the head of `l`?  This follows the
claim wording "negative-number token"; the source tests only for the
character `-`. -/
def negNumTokenAt : List Char → Bool
  | '-' :: '.' :: c :: _ => c.isDigit
  | '-' :: c :: _ => c.isDigit
  | _ => false

/-- Does a negative-number token occur anywhere in the text? -/
def hasNegNumToken : List Char → Bool
  | [] => false
  | l@(_ :: t) => negNumTokenAt l || hasNegNumToken t

/-- Violation detection as claim C3 words it: a literal violation marker, or
the word "slack" together with a negative-number token somewhere in the
text. -/
def specViolationOf (l : List Char) : Bool :=
  inclTok csEqC "VIOLATED".data l ||
  (inclTok csEqC "slack".data l && hasNegNumToken l)

/-- Label extraction as claim C4 words it: the text following the first
occurrence of the label, up to the next parenthesis or line end, whichever
comes first. -/
def specAfterLabel (lab : List Char) : List Char → Option (List Char)
  | [] => none
  | l@(_ :: t) =>
    match matchTok ciEqC lab l with
    | some (_, r) => some (r.takeWhile (fun c => !(c == '(' || isLineTerm c)))
    | none => specAfterLabel lab t

/-- The startpoint as claim C4 words it: `Startpoint:` first, falling back
to `Beginpoint:` only when absent, trimmed, defaulting to "Unknown". -/
def specStartpointOf (l : List Char) : String :=
  match specAfterLabel "Startpoint:".data l with
  | some g => String.mk (jsTrim g)
  | none =>
    match specAfterLabel "Beginpoint:".data l with
    | some g => String.mk (jsTrim g)
    | none => "Unknown"

/-! ## Theorems -/

/-- C1: on the fixed mock Cadence-style report the analyzer returns
`hasViolation = true`, the claimed startpoint and endpoint, and an issues
list containing the generic violation issue and the low-drive-strength
issue (plus the clock-uncertainty issue), with logic depth 6 and 5 cell
types — but the `slack` field is `NaN`, not the claimed `-0.045`: the
second slack layout matches and `slackMatch[2] || slackMatch[1]` selects
the status word `VIOLATED`, which `parseFloat` cannot parse. -/
theorem c1_mock_report_eval :
    analyzePath (getMockTimingData "") =
      ⟨true, some JsNum.nan,
       "core/register_file/register_memory_reg[7][12]/Q",
       "core/memory_controller/addr_reg[12]/D",
       [⟨"Timing violation detected",
         ["Consider upsizing critical cells in the path",
          "Optimize logic depth to reduce delay",
          "Check for high fanout nets and buffer them",
          "Review clock skew between source and destination"]⟩,
        ⟨"Low drive strength cells in critical path",
         ["Upsize cells to higher drive strength variants",
          "Replace X0 cells with X1 or X2 variants",
          "Consider using faster cell types (e.g., RVT to LVT)"]⟩,
        ⟨"Clock uncertainty affecting timing",
         ["Review clock tree synthesis settings",
          "Check for excessive clock jitter or skew",
          "Consider using more balanced clock tree"]⟩],
       6, "", 5⟩ ∧
    (analyzePath (getMockTimingData "")).slack ≠ some (JsNum.num (mkRat (-45) 1000)) := by
  constructor
  · rfl
  · intro h
    rw [show (analyzePath (getMockTimingData "")).slack = some JsNum.nan from rfl] at h
    simp only [Option.some.injEq] at h
    exact absurd h (by decide)

/-- C2: the slack extraction parses the regex VALUE group only in the first
layout `slack (STATUS) VALUE`; in the second layout `VALUE slack (STATUS)`
the source feeds `slackMatch[2]`, the STATUS word, to `parseFloat`, so a
layout-2-only input yields `NaN` instead of the claimed parsed value.  The
claimed positive instance holds: an input containing
`slack (MET) <spaces> 0.130` yields slack `0.130`; and slack is `null`
when neither layout matches. -/
theorem c2_slack_layouts :
    (analyzePath "slack (MET)                                        0.130").slack =
      some (JsNum.num (mkRat 130 1000)) ∧
    (analyzePath "0.155      0.155  slack (MET)").slack = some JsNum.nan ∧
    (analyzePath "no slack line here").slack = none := by
  refine ⟨?_, ?_, ?_⟩ <;> rfl

/-- C5: the analyzer is a total Lean function, and on the empty string every
field takes its default: no violation, absent slack, "Unknown" endpoints,
no issues, zero depth, zero cell types, empty depth analysis. -/
theorem c5_empty_defaults :
    analyzePath "" = ⟨false, none, "Unknown", "Unknown", [], 0, "", 0⟩ := by
  rfl

/-! ### Substring characterisation (case-sensitive `includes`) -/

/-- A case-sensitive literal prefix match succeeds exactly on list prefixes. -/
theorem matchTok_cs_isSome (p : List Char) : ∀ l, (matchTok csEqC p l).isSome = true ↔ p <+: l := by
  induction p with
  | nil =>
    intro l
    simp [ matchTok, List.nil_prefix]
  | cons a ps ih =>
    intro l
    cases l with
    | nil => simp [ matchTok]
    | cons c cs =>
      by_cases h : a = c
      · subst h
        simp [ matchTok, csEqC, ih, List.cons_prefix_cons]
      · simp [ matchTok, csEqC, beq_eq_false_iff_ne.mpr h, List.cons_prefix_cons, h]

/-- `inclTok csEqC` is exactly list-infix occurrence: the model of
`String.prototype.includes`. -/
theorem inclTok_cs_iff (p : List Char) : ∀ l, (inclTok csEqC p l = true) ↔ p <:+: l := by
  intro l
  induction l with
  | nil =>
    simp [ inclTok, matchTok_cs_isSome, List.infix_nil, List.prefix_nil]
  | cons c cs ih =>
    simp [ inclTok, matchTok_cs_isSome, List.infix_cons_iff, ih]

/-- C3 counterexample: the input `slack a-b` contains the word "slack" and a
hyphen but no negative-number token and no violation marker; the claim
predicts `hasViolation = false`, the code returns `true` because it only
tests for the character `-`. -/
theorem c3_hyphen_counterexample :
    (analyzePath "slack a-b").hasViolation = true ∧
    specViolationOf "slack a-b".data = false := by
  exact ⟨rfl, rfl⟩

/-- C3 amended: `hasViolation` is true exactly when the text contains the
(case-sensitive) substring `VIOLATED`, or contains both the substring
`slack` and at least one `-` character anywhere — not necessarily a
negative-number token.  (The source's redundant middle test for
`slack (VIOLATED)` is subsumed by the `VIOLATED` test.) -/
theorem c3_violation_rule (s : String) :
    (analyzePath s).hasViolation =
      (jsIncludes s "VIOLATED" || (jsIncludes s "slack" && jsIncludes s "-")) := by
  show hasViolationOf s.data = _
  unfold hasViolationOf jsIncludes
  cases hb : inclTok csEqC "slack (VIOLATED)".data s.data with
  | false => simp [hb]
  | true =>
    have ha : inclTok csEqC "VIOLATED".data s.data = true := by
      rw [inclTok_cs_iff] at hb ⊢
      exact List.IsInfix.trans ⟨"slack (".data, ")".data, by decide⟩ hb
    simp [ha, hb]

/-! ### Lemmas for the label extraction -/

/-- Case-insensitive comparison is reflexive. -/
theorem ciEqC_refl (c : Char) : ciEqC c c = true := by
  simp [ciEqC]

/-- A literal matches itself as a prefix (under any reflexive comparison). -/
theorem matchTok_self (eqf : Char → Char → Bool) (hrefl : ∀ c, eqf c c = true)
    (p X : List Char) : matchTok eqf p (p ++ X) = some (p, X) := by
  induction p with
  | nil => rfl
  | cons a ps ih => simp [ matchTok, hrefl a, ih]

/-- A character that is not JavaScript whitespace is matched by `.`
(line terminators are whitespace). -/
theorem dot_of_not_ws (c : Char) (h : isJsWs c = false) : isDotChar c = true := by
  simp only [isJsWs, Bool.or_eq_false_iff, Bool.and_eq_false_iff,
    decide_eq_false_iff_not] at h
  simp only [isDotChar, isLineTerm, Bool.not_eq_true', Bool.or_eq_false_iff,
    decide_eq_false_iff_not]
  omega

/-- `takeWhile` is empty on a list whose head fails the predicate; stated
with a membership hypothesis for convenience. -/
theorem takeWhile_eq_nil_of (p : Char → Bool) (l : List Char)
    (h : ∀ c ∈ l, p c = false) : l.takeWhile p = [] := by
  cases l with
  | nil => rfl
  | cons c cs =>
    have := h c (by simp)
    simp [ List.takeWhile_cons_of_neg, this]

/-- `dropWhile` is the identity on a list none of whose elements satisfies
the predicate. -/
theorem dropWhile_eq_self_of (p : Char → Bool) (l : List Char)
    (h : ∀ c ∈ l, p c = false) : l.dropWhile p = l := by
  cases l with
  | nil => rfl
  | cons c cs =>
    have := h c (by simp)
    simp [ List.dropWhile_cons_of_neg, this]

/-- `trim` leaves a string of non-whitespace characters unchanged. -/
theorem jsTrim_id (l : List Char) (h : ∀ c ∈ l, isJsWs c = false) :
    jsTrim l = l := by
  unfold jsTrim
  rw [dropWhile_eq_self_of _ l h]
  rw [dropWhile_eq_self_of _ l.reverse (by intro c hc; exact h c (List.mem_reverse.mp hc))]
  simp

/-- Running the lazy group over a whitespace-free name followed by
`" ("` terminates exactly at the end of the name and captures it whole. -/
theorem labelGScan_run (nm : List Char) (hne : nm ≠ [])
    (hnm : ∀ c ∈ nm, isJsWs c = false) :
    ∀ (gacc r : List Char),
      labelGScan gacc (nm ++ ' ' :: '(' :: r) = some (gacc.reverse ++ nm) := by
  induction nm with
  | nil => exact absurd rfl hne
  | cons a nm ih =>
    intro gacc r
    have ha : isJsWs a = false := hnm a (by simp)
    cases nm with
    | nil =>
      simp only [List.nil_append, List.cons_append, labelGScan,
        dot_of_not_ws a ha, if_true]
      have hterm : labelTermAt (' ' :: '(' :: r) = true := by
        have hws : isJsWs ' ' = true := by decide
        have hnws : isJsWs '(' = false := by decide
        simp [labelTermAt, List.takeWhile_cons_of_pos, hws,
          takeWhile_eq_nil_of, List.dropWhile_cons_of_pos,
          List.dropWhile_cons_of_neg, hnws]
      simp [hterm]
    | cons b nm2 =>
      have hb : isJsWs b = false := hnm b (by simp)
      have hterm : labelTermAt (b :: (nm2 ++ ' ' :: '(' :: r)) = false := by
        simp [labelTermAt, List.takeWhile_cons_of_neg, hb]
      simp only [List.cons_append, labelGScan, dot_of_not_ws a ha, if_true]
      rw [if_neg (by simp [hterm])]
      have := ih (by simp) (fun c hc => hnm c (by simp [hc])) (a :: gacc) r
      simp only [List.cons_append, labelGScan] at this
      rw [this]
      simp

/-- The label regex, attempted right at its label followed by one space, a
whitespace-free name, and a `" ("` terminator, captures exactly the name. -/
theorem labelAt_run (lab nm : List Char) (hne : nm ≠ [])
    (hnm : ∀ c ∈ nm, isJsWs c = false) (r : List Char) :
    labelAt lab (lab ++ ' ' :: (nm ++ ' ' :: '(' :: r)) = some nm := by
  obtain ⟨a, nm2, rfl⟩ : ∃ a nm2, nm = a :: nm2 := by
    cases nm with
    | nil => exact absurd rfl hne
    | cons a nm2 => exact ⟨a, nm2, rfl⟩
  have ha : isJsWs a = false := hnm a (by simp)
  have hws : isJsWs ' ' = true := by decide
  have htake : (' ' :: ((a :: nm2) ++ ' ' :: '(' :: r)).takeWhile isJsWs = [' '] := by
    simp [ List.cons_append, List.takeWhile_cons_of_pos, hws,
      List.takeWhile_cons_of_neg, ha]
  have hdrop : (' ' :: ((a :: nm2) ++ ' ' :: '(' :: r)).dropWhile isJsWs
      = (a :: nm2) ++ ' ' :: '(' :: r := by
    simp [ List.cons_append, List.dropWhile_cons_of_pos, hws,
      List.dropWhile_cons_of_neg, ha]
  unfold labelAt
  rw [matchTok_self ciEqC ciEqC_refl]
  show labelAfter (' ' :: ((a :: nm2) ++ ' ' :: '(' :: r)) = some (a :: nm2)
  unfold labelAfter
  rw [htake, hdrop, if_neg (by simp)]
  show labelGScan [] ((a :: nm2) ++ ' ' :: '(' :: r) = some (a :: nm2)
  rw [labelGScan_run (a :: nm2) (by simp) hnm [] r]
  simp

/-- When the label regex already matches at the first position, the leftmost
scan returns that match. -/
theorem findLabel_head (lab l g : List Char) (h : labelAt lab l = some g) :
    findLabel lab l = some g := by
  cases l with
  | nil => simp [ findLabel, h]
  | cons c t => simp [ findLabel, h]

/-- C4 counterexample: on `"Startpoint: a\nb"` the claimed extraction (up to
the next parenthesis or line end) yields `"a"`, but the regex terminator
`(?:\s+\(|$)` only accepts whitespace-then-parenthesis or the end of the
whole input, so the code yields `"Unknown"`. -/
theorem c4_lineend_counterexample :
    (analyzePath "Startpoint: a\nb").startpoint = "Unknown" ∧
    specStartpointOf "Startpoint: a\nb".data = "a" := by
  exact ⟨rfl, rfl⟩

/-- C4 amended: the startpoint (resp. endpoint) is the text following the
label and its whitespace, lazily extended up to a whitespace-then-`(`
terminator or the end of the whole input (not the end of the line), then
trimmed; in particular, for any non-empty whitespace-free `name`, the text
`LABEL: name (...` yields exactly `name`. -/
theorem c4_label_extraction (name : String) (hne : name ≠ "")
    (hnm : ∀ c ∈ name.data, isJsWs c = false) :
    (analyzePath ("Startpoint: " ++ name ++ " (x)")).startpoint = name ∧
    (analyzePath ("Endpoint: " ++ name ++ " (x)")).endpoint = name := by
  have hdne : name.data ≠ [] := by
    intro h
    exact hne (congrArg String.mk h)
  constructor
  · show startpointOf ("Startpoint: " ++ name ++ " (x)").data = name
    have hd : ("Startpoint: " ++ name ++ " (x)").data
        = "Startpoint:".data ++ ' ' :: (name.data ++ ' ' :: '(' :: "x)".data) := by
      rw [String.data_append, String.data_append]
      rfl
    unfold startpointOf
    rw [hd, findLabel_head "Startpoint:".data _ name.data
      (labelAt_run "Startpoint:".data name.data hdne hnm "x)".data)]
    show String.mk (jsTrim name.data) = name
    rw [jsTrim_id name.data hnm]
  · show endpointOf ("Endpoint: " ++ name ++ " (x)").data = name
    have hd : ("Endpoint: " ++ name ++ " (x)").data
        = "Endpoint:".data ++ ' ' :: (name.data ++ ' ' :: '(' :: "x)".data) := by
      rw [String.data_append, String.data_append]
      rfl
    unfold endpointOf
    rw [hd, findLabel_head "Endpoint:".data _ name.data
      (labelAt_run "Endpoint:".data name.data hdne hnm "x)".data)]
    show String.mk (jsTrim name.data) = name
    rw [jsTrim_id name.data hnm]

/-- C4 witness: the amended extraction at a concrete register name. -/
theorem c4_label_extraction_witness :
    (analyzePath ("Startpoint: " ++ "core/u1/q_reg[3]" ++ " (x)")).startpoint
      = "core/u1/q_reg[3]" ∧
    (analyzePath ("Endpoint: " ++ "core/u1/q_reg[3]" ++ " (x)")).endpoint
      = "core/u1/q_reg[3]" := by
  exact c4_label_extraction "core/u1/q_reg[3]" (by decide) (by decide)

/-! ### Lemmas for the cell extraction count (C6) -/

/-- A successful cell match splits the input as match text plus rest, and no
character of the match after its leading `/` is another `/` — hence no
match can begin strictly inside another match. -/
theorem matchYCell_shape (l m nm r : List Char) (h : matchYCell l = some (m, nm, r)) :
    l = m ++ r ∧ ∃ ms, m = '/' :: ms ∧ ∀ c ∈ ms, c ≠ '/' := by
  unfold matchYCell at h
  split at h
  case _ rest =>
    set tw := rest.takeWhile isJsWs with htw
    have hsplit1 : tw ++ rest.dropWhile isJsWs = rest :=
      List.takeWhile_append_dropWhile isJsWs rest
    simp only at h
    split at h
    · exact Option.noConfusion h
    · split at h
      case _ r3 heq2 =>
        set tc := r3.takeWhile isCellChar with htc
        have hsplit2 : tc ++ r3.dropWhile isCellChar = r3 :=
          List.takeWhile_append_dropWhile isCellChar r3
        split at h
        · exact Option.noConfusion h
        · split at h
          case _ r5 heq4 =>
            simp only [Option.some.injEq, Prod.mk.injEq] at h
            obtain ⟨hm, -, hr⟩ := h
            rw [heq2] at hsplit1
            rw [heq4] at hsplit2
            constructor
            · rw [← hm, ← hr, ← hsplit1, ← hsplit2]
              simp
            · refine ⟨'Y' :: (tw ++ '(' :: (tc ++ [')'])), by rw [← hm], ?_⟩
              intro c hc
              simp only [List.mem_cons, List.mem_append, List.mem_singleton] at hc
              rcases hc with h1 | h2 | h3 | h4 | h5
              · subst h1; decide
              · have := List.mem_takeWhile_imp (htw ▸ h2)
                intro he
                subst he
                exact absurd this (by decide)
              · subst h3; decide
              · have := List.mem_takeWhile_imp (htc ▸ h4)
                intro he
                subst he
                exact absurd this (by decide)
              · rcases h5 with h5 | h5
                · subst h5; decide
                · cases h5
          all_goals exact Option.noConfusion h
      all_goals exact Option.noConfusion h
  all_goals exact Option.noConfusion h

/-- The cell regex cannot match at a position whose character is not `/`. -/
theorem matchYCell_none_head (c : Char) (t : List Char) (h : c ≠ '/') :
    matchYCell (c :: t) = none := by
  unfold matchYCell
  split
  case _ rest heq =>
    exact absurd (List.cons.inj heq).1 h
  rfl

/-- Positions inside a slash-free segment contribute no matches. -/
theorem countYCellStarts_no_slash (xs : List Char) (h : ∀ c ∈ xs, c ≠ '/') :
    ∀ r, countYCellStarts (xs ++ r) = countYCellStarts r := by
  induction xs with
  | nil => intro r; rfl
  | cons c t ih =>
    intro r
    have hc : c ≠ '/' := h c (by simp)
    simp only [List.cons_append, countYCellStarts, matchYCell_none_head c _ hc,
      Option.isSome_none, Bool.false_eq_true, if_false, Nat.zero_add]
    exact ih (fun d hd => h d (by simp [hd])) r

/-- One unfolding step of the fuelled global scan. -/
theorem extractYCellGo_succ (f : Nat) (l : List Char) :
    extractYCellGo (f + 1) l =
      (match matchYCell l with
       | some (m, _, r) => String.mk m :: extractYCellGo f r
       | none =>
         match l with
         | [] => []
         | _ :: t => extractYCellGo f t) := rfl

/-- With sufficient fuel, the global scan finds exactly one match for every
position at which the cell regex matches. -/
theorem extractYCellGo_length (f : Nat) :
    ∀ l : List Char, l.length ≤ f →
      (extractYCellGo f l).length = countYCellStarts l := by
  induction f with
  | zero =>
    intro l hl
    have : l = [] := List.length_eq_zero.mp (Nat.le_zero.mp hl)
    subst this
    rfl
  | succ f ih =>
    intro l hl
    cases hm : matchYCell l with
    | some x =>
      obtain ⟨m, nm, r⟩ := x
      obtain ⟨hsplit, ms, hms, hnoslash⟩ := matchYCell_shape l m nm r hm
      have hr : r.length ≤ f := by
        have : l.length = m.length + r.length := by rw [hsplit, List.length_append]
        have hmlen : 0 < m.length := by rw [hms]; simp
        omega
      have hgo : extractYCellGo (f + 1) l = String.mk m :: extractYCellGo f r := by
        rw [extractYCellGo_succ, hm]
      rw [hgo]
      have hl2 : l = '/' :: (ms ++ r) := by rw [hsplit, hms]; rfl
      rw [hl2]
      simp only [List.length_cons, countYCellStarts]
      rw [show matchYCell ('/' :: (ms ++ r)) = some (m, nm, r) by rw [← hl2]; exact hm]
      rw [countYCellStarts_no_slash ms hnoslash r]
      simp only [Option.isSome_some, if_true, List.length_cons]
      rw [ih r hr]
      omega
    | none =>
      cases l with
      | nil => rfl
      | cons c t =>
        have hgo : extractYCellGo (f + 1) (c :: t) = extractYCellGo f t := by
          rw [extractYCellGo_succ, hm]
        rw [hgo]
        simp only [countYCellStarts, hm, Option.isSome_none, Bool.false_eq_true,
          if_false, Nat.zero_add]
        exact ih t (by simpa using Nat.le_of_succ_le_succ hl)

/-- The number of matches of the global scan equals the number of positions
at which the cell regex matches. -/
theorem extract_length_eq_count (l : List Char) :
    (extractYCellMatches l).length = countYCellStarts l :=
  extractYCellGo_length l.length l (Nat.le_refl _)

/-- C6: `logicDepth` equals the number of positions in the text at which the
`/Y (CELLNAME)` regex matches — the occurrences counted in order with
duplicates retained — and equals the length of the full extracted cell
list. -/
theorem c6_logic_depth (s : String) :
    (analyzePath s).logicDepth = countYCellStarts s.data ∧
    (analyzePath s).logicDepth = (cellsOf s.data).length := by
  constructor
  · show logicDepthOf s.data = _
    unfold logicDepthOf cellsOf cellsMatchOf
    rw [List.length_map]
    exact extract_length_eq_count s.data
  · rfl

/-! ### Lemmas for the cell-type count (C7) -/

/-- One `bump` step either leaves the key list unchanged (key present) or
appends the new key at the end. -/
theorem bump_keys (acc : List (String × Nat)) (k : String) :
    (bump acc k).map Prod.fst =
      if k ∈ acc.map Prod.fst then acc.map Prod.fst else acc.map Prod.fst ++ [k] := by
  induction acc with
  | nil => simp [bump]
  | cons p t ih =>
    obtain ⟨a, n⟩ := p
    by_cases hak : a = k
    · subst hak
      simp [bump]
    · simp only [bump, if_neg hak, List.map_cons, List.mem_cons]
      rw [ih]
      by_cases hmem : k ∈ t.map Prod.fst
      · simp [hmem]
      · simp [hmem, Ne.symm hak]

/-- The keys accumulated by the fold are the starting keys together with the
base names of the processed cells. -/
theorem cellCountsFold_keys_toFinset (cs : List String) :
    ∀ acc, ((cellCountsFold acc cs).map Prod.fst).toFinset =
      (acc.map Prod.fst).toFinset ∪ (cs.map baseCell).toFinset := by
  induction cs with
  | nil => intro acc; simp [cellCountsFold]
  | cons c cs ih =>
    intro acc
    rw [show cellCountsFold acc (c :: cs) = cellCountsFold (bump acc (baseCell c)) cs
      from rfl]
    rw [ih (bump acc (baseCell c))]
    ext x
    by_cases hk : baseCell c ∈ acc.map Prod.fst
    · simp only [bump_keys, hk, if_true, Finset.mem_union, List.mem_toFinset,
        List.map_cons, List.mem_cons]
      constructor
      · rintro (h1 | h2)
        · exact Or.inl h1
        · exact Or.inr (Or.inr h2)
      · rintro (h1 | h2 | h3)
        · exact Or.inl h1
        · exact Or.inl (h2 ▸ hk)
        · exact Or.inr h3
    · simp only [bump_keys, hk, if_false, Finset.mem_union, List.mem_toFinset,
        List.mem_append, List.map_cons, List.mem_cons, List.mem_singleton,
        List.not_mem_nil, or_false]
      constructor
      · rintro ((h1 | h2) | h3)
        · exact Or.inl h1
        · exact Or.inr (Or.inl h2)
        · exact Or.inr (Or.inr h3)
      · rintro (h1 | h2 | h3)
        · exact Or.inl (Or.inl h1)
        · exact Or.inl (Or.inr h2)
        · exact Or.inr h3

/-- The fold never duplicates a key. -/
theorem cellCountsFold_keys_nodup (cs : List String) :
    ∀ acc, (acc.map Prod.fst).Nodup → ((cellCountsFold acc cs).map Prod.fst).Nodup := by
  induction cs with
  | nil => intro acc h; exact h
  | cons c cs ih =>
    intro acc h
    rw [show cellCountsFold acc (c :: cs) = cellCountsFold (bump acc (baseCell c)) cs
      from rfl]
    apply ih
    rw [bump_keys]
    by_cases hk : baseCell c ∈ acc.map Prod.fst
    · simpa [hk] using h
    · simp only [hk, if_false]
      simp [List.nodup_append, h, hk]

/-- `cellTypes` is the number of distinct base cell names of the extracted
cell list. -/
theorem cellTypesOf_eq_card (l : List Char) :
    cellTypesOf l = ((cellsOf l).map baseCell).toFinset.card := by
  unfold cellTypesOf cellCountsOf
  have hnodup : ((cellCountsFold [] (cellsOf l)).map Prod.fst).Nodup :=
    cellCountsFold_keys_nodup (cellsOf l) [] (by simp)
  have hlen : (cellCountsFold [] (cellsOf l)).length
      = ((cellCountsFold [] (cellsOf l)).map Prod.fst).length := by
    rw [List.length_map]
  rw [hlen, ← List.toFinset_card_of_nodup hnodup,
    cellCountsFold_keys_toFinset (cellsOf l) []]
  simp

/-- C7: `cellTypes` counts the distinct base cell families (drive-strength
suffix stripped) of the extracted cells; it never exceeds `logicDepth`, and
equals it when the base families are pairwise distinct. -/
theorem c7_cell_types (s : String) :
    (analyzePath s).cellTypes = ((cellsOf s.data).map baseCell).toFinset.card ∧
    (analyzePath s).cellTypes ≤ (analyzePath s).logicDepth ∧
    (((cellsOf s.data).map baseCell).Nodup →
      (analyzePath s).cellTypes = (analyzePath s).logicDepth) := by
  have h1 : (analyzePath s).cellTypes = ((cellsOf s.data).map baseCell).toFinset.card :=
    cellTypesOf_eq_card s.data
  refine ⟨h1, ?_, ?_⟩
  · rw [h1]
    calc ((cellsOf s.data).map baseCell).toFinset.card
        ≤ ((cellsOf s.data).map baseCell).length := List.toFinset_card_le _
      _ = (cellsOf s.data).length := List.length_map _ _
      _ = (analyzePath s).logicDepth := rfl
  · intro hnd
    rw [h1, List.toFinset_card_of_nodup hnd, List.length_map]
    rfl

/-- C7 witness: two cells with distinct base families give
`cellTypes = logicDepth`. -/
theorem c7_cell_types_witness :
    (analyzePath "/Y (AND2X1_RVT) /Y (INVX0_RVT)").cellTypes
      = (analyzePath "/Y (AND2X1_RVT) /Y (INVX0_RVT)").logicDepth :=
  (c7_cell_types "/Y (AND2X1_RVT) /Y (INVX0_RVT)").2.2 (by decide)

/-! ### Lemmas for the issue list (C8, C9) -/

/-- Among the catalog contributions, exactly the long-path rule carries the
label "Long logic path detected". -/
theorem countP_long_base (l : List Char) :
    (baseIssuesOf l).countP (fun i => decide (i.issue = "Long logic path detected")) =
      if inclTok ciEqC "long path".data l then 1 else 0 := by
  unfold baseIssuesOf timingIssues
  rw [List.countP_map]
  rw [List.countP_filter]
  simp [List.countP_cons, ruleEntry]

/-- Among the catalog contributions, exactly the long-path rule has a label
containing "Long logic path". -/
theorem any_long_base (l : List Char) :
    (baseIssuesOf l).any (fun i => jsIncludes i.issue "Long logic path") =
      inclTok ciEqC "long path".data l := by
  cases ht5 : inclTok ciEqC "long path".data l with
  | true =>
    rw [List.any_eq_true]
    refine ⟨ruleEntry ⟨fun l => inclTok ciEqC "long path".data l,
      "Long logic path detected",
      ["Consider logic restructuring to reduce depth",
       "Add pipeline registers to break long paths",
       "Review synthesis constraints for the path"]⟩, ?_, by decide⟩
    refine List.mem_map_of_mem ruleEntry ?_
    rw [List.mem_filter]
    exact ⟨by simp [timingIssues], ht5⟩
  | false =>
    rw [List.any_eq_false]
    intro i hi
    obtain ⟨r, hr, rfl⟩ := List.mem_map.mp hi
    obtain ⟨hrmem, hrtest⟩ := List.mem_filter.mp hr
    simp only [timingIssues, List.mem_cons, List.not_mem_nil, or_false] at hrmem
    rcases hrmem with rfl | rfl | rfl | rfl | rfl
    · decide
    · decide
    · decide
    · decide
    · rw [show (⟨fun l => inclTok ciEqC "long path".data l,
          "Long logic path detected",
          ["Consider logic restructuring to reduce depth",
           "Add pipeline registers to break long paths",
           "Review synthesis constraints for the path"]⟩ :
          TimingIssueRule).test l = inclTok ciEqC "long path".data l from rfl,
        ht5] at hrtest
      exact Bool.noConfusion hrtest

/-- The catalog contributes nothing exactly when no rule matches. -/
theorem base_nil_iff (l : List Char) :
    baseIssuesOf l = [] ↔ ∀ r ∈ timingIssues, r.test l = false := by
  unfold baseIssuesOf
  rw [List.map_eq_nil_iff, List.filter_eq_nil_iff]
  simp

/-- The long-path rule is one of the catalog rules. -/
theorem longPathRule_mem :
    (⟨fun l => inclTok ciEqC "long path".data l,
      "Long logic path detected",
      ["Consider logic restructuring to reduce depth",
       "Add pipeline registers to break long paths",
       "Review synthesis constraints for the path"]⟩ : TimingIssueRule)
      ∈ timingIssues := by
  simp [timingIssues]

/-- After the generic-fallback step the long-path label count is still that
of the long-path rule (the fallback issue carries a different label). -/
theorem countP_long_issuesViol (l : List Char) :
    (issuesViolOf l).countP (fun i => decide (i.issue = "Long logic path detected")) =
      if inclTok ciEqC "long path".data l then 1 else 0 := by
  unfold issuesViolOf
  by_cases hc : (hasViolationOf l && (baseIssuesOf l).length == 0) = true
  · rw [if_pos hc, List.countP_append, countP_long_base]
    have hgen : List.countP (fun i => decide (i.issue = "Long logic path detected"))
        [genericViolationIssue] = 0 := by decide
    rw [hgen, Nat.add_zero]
  · rw [if_neg hc]
    exact countP_long_base l

/-- After the generic-fallback step the "contains Long logic path" test over
the issue list is exactly the long-path rule test. -/
theorem any_long_issuesViol (l : List Char) :
    (issuesViolOf l).any (fun i => jsIncludes i.issue "Long logic path") =
      inclTok ciEqC "long path".data l := by
  unfold issuesViolOf
  by_cases hc : (hasViolationOf l && (baseIssuesOf l).length == 0) = true
  · rw [if_pos hc]
    obtain ⟨-, hlen⟩ := (Bool.and_eq_true _ _).mp hc
    have hbase : baseIssuesOf l = [] :=
      List.length_eq_zero.mp (beq_iff_eq.mp hlen)
    have ht5 : inclTok ciEqC "long path".data l = false := by
      have := (base_nil_iff l).mp hbase _ longPathRule_mem
      exact this
    rw [hbase, ht5]
    decide
  · rw [if_neg hc]
    exact any_long_base l

/-- C8: `depthAnalysis` is non-empty exactly when `logicDepth` exceeds 8,
and in that case the issue labeled "Long logic path detected" occurs in the
issue list exactly once — the depth check only adds it when no catalog rule
already contributed a label containing "Long logic path". -/
theorem c8_depth_advisory (s : String) :
    ((analyzePath s).depthAnalysis ≠ "" ↔ (analyzePath s).logicDepth > 8) ∧
    ((analyzePath s).logicDepth > 8 →
      (analyzePath s).issues.countP
        (fun i => decide (i.issue = "Long logic path detected")) = 1) := by
  constructor
  · show (depthAnalysisOf s.data ≠ "") ↔ logicDepthOf s.data > 8
    unfold depthAnalysisOf
    by_cases h : logicDepthOf s.data > 8
    · rw [if_pos h]
      constructor
      · intro _; exact h
      · intro _
        show highDepthMsg ≠ ""
        decide
    · rw [if_neg h]
      simp [h]
  · intro hd
    replace hd : logicDepthOf s.data > 8 := hd
    show (issuesOf s.data).countP _ = 1
    unfold issuesOf
    rw [if_pos hd, any_long_issuesViol]
    cases ht5 : inclTok ciEqC "long path".data s.data with
    | true =>
      rw [if_pos rfl, countP_long_issuesViol, ht5]
      rfl
    | false =>
      rw [if_neg (by simp), List.countP_append, countP_long_issuesViol, ht5]
      decide

/-- C8 witness: a report with nine driver pins has a long-path issue exactly
once. -/
theorem c8_depth_advisory_witness :
    (analyzePath
      "/Y (C1) /Y (C2) /Y (C3) /Y (C4) /Y (C5) /Y (C6) /Y (C7) /Y (C8) /Y (C9)").issues.countP
        (fun i => decide (i.issue = "Long logic path detected")) = 1 :=
  (c8_depth_advisory
    "/Y (C1) /Y (C2) /Y (C3) /Y (C4) /Y (C5) /Y (C6) /Y (C7) /Y (C8) /Y (C9)").2
    (by decide)

/-- C9: the issue list is empty only when no catalog rule matched and no
violation was detected; with a violation and no matching rule, exactly one
generic fallback issue (with 4 suggestions, distinct from every catalog
rule's suggestion list) is synthesized; and the matching rules always
contribute their entries as a prefix, in catalog order. -/
theorem c9_issue_collection (s : String) :
    ((analyzePath s).issues = [] →
      (∀ r ∈ timingIssues, r.test s.data = false) ∧
      (analyzePath s).hasViolation = false) ∧
    ((analyzePath s).hasViolation = true →
      (∀ r ∈ timingIssues, r.test s.data = false) →
      (analyzePath s).issues.countP (fun i => decide (i = genericViolationIssue)) = 1 ∧
      genericViolationIssue.suggestions.length = 4 ∧
      (∀ r ∈ timingIssues, genericViolationIssue.suggestions ≠ r.suggestions)) ∧
    (∃ rest, (analyzePath s).issues = baseIssuesOf s.data ++ rest) := by
  refine ⟨?_, ?_, ?_⟩
  · intro h
    replace h : issuesOf s.data = [] := h
    unfold issuesOf at h
    have hiv : issuesViolOf s.data = [] := by
      by_cases hd : logicDepthOf s.data > 8
      · rw [if_pos hd] at h
        by_cases ha : (issuesViolOf s.data).any
            (fun i => jsIncludes i.issue "Long logic path") = true
        · rw [if_pos ha] at h; exact h
        · rw [if_neg ha] at h
          exact absurd h (by simp)
      · rw [if_neg hd] at h; exact h
    unfold issuesViolOf at hiv
    by_cases hc : (hasViolationOf s.data && (baseIssuesOf s.data).length == 0) = true
    · rw [if_pos hc] at hiv
      exact absurd hiv (by simp)
    · rw [if_neg hc] at hiv
      refine ⟨(base_nil_iff s.data).mp hiv, ?_⟩
      show hasViolationOf s.data = false
      by_contra hv
      rw [Bool.not_eq_false] at hv
      apply hc
      rw [hv, hiv]
      rfl
  · intro hv hall
    have hbase : baseIssuesOf s.data = [] := (base_nil_iff s.data).mpr hall
    replace hv : hasViolationOf s.data = true := hv
    have hc : (hasViolationOf s.data && (baseIssuesOf s.data).length == 0) = true := by
      rw [hv, hbase]
      rfl
    have hiv : issuesViolOf s.data = [genericViolationIssue] := by
      unfold issuesViolOf
      rw [if_pos hc, hbase]
      rfl
    refine ⟨?_, by decide, ?_⟩
    · show (issuesOf s.data).countP _ = 1
      unfold issuesOf
      by_cases hd : logicDepthOf s.data > 8
      · rw [if_pos hd, hiv]
        by_cases ha : ([genericViolationIssue] : List AnalysisIssue).any
            (fun i => jsIncludes i.issue "Long logic path") = true
        · rw [if_pos ha]
          decide
        · rw [if_neg ha]
          decide
      · rw [if_neg hd, hiv]
        decide
    · intro r hr
      simp only [timingIssues, List.mem_cons, List.not_mem_nil, or_false] at hr
      rcases hr with rfl | rfl | rfl | rfl | rfl <;> decide
  · show ∃ rest, issuesOf s.data = baseIssuesOf s.data ++ rest
    have hiv : ∃ r1, issuesViolOf s.data = baseIssuesOf s.data ++ r1 := by
      unfold issuesViolOf
      by_cases hc : (hasViolationOf s.data && (baseIssuesOf s.data).length == 0) = true
      · exact ⟨[genericViolationIssue], by rw [if_pos hc]⟩
      · exact ⟨[], by rw [if_neg hc, List.append_nil]⟩
    obtain ⟨r1, hr1⟩ := hiv
    unfold issuesOf
    by_cases hd : logicDepthOf s.data > 8
    · rw [if_pos hd]
      by_cases ha : (issuesViolOf s.data).any
          (fun i => jsIncludes i.issue "Long logic path") = true
      · rw [if_pos ha, hr1]
        exact ⟨r1, rfl⟩
      · rw [if_neg ha, hr1, List.append_assoc]
        exact ⟨r1 ++ [longPathIssue], rfl⟩
    · rw [if_neg hd, hr1]
      exact ⟨r1, rfl⟩

/-- C9 witness: a bare `VIOLATED` marker matches no catalog rule, and the
issue list is exactly one generic fallback issue. -/
theorem c9_issue_collection_witness :
    (analyzePath "VIOLATED").issues.countP
      (fun i => decide (i = genericViolationIssue)) = 1 :=
  ((c9_issue_collection "VIOLATED").2.1 (by rfl) (by decide)).1

/-! ### Lemmas for the cell-name character set (C10) -/

/-- A lowercase letter is not a cell-name character. -/
theorem isCellChar_of_lower (c : Char) (h : isLowerAlpha c = true) :
    isCellChar c = false := by
  simp only [isLowerAlpha, Bool.and_eq_true, decide_eq_true_eq] at h
  simp only [isCellChar, Bool.or_eq_false_iff, Bool.and_eq_false_iff,
    decide_eq_false_iff_not]
  omega

/-- The head of a non-trivial `dropWhile` fails the predicate. -/
theorem dropWhile_head_false (p : Char → Bool) :
    ∀ (l : List Char) (c : Char) (t : List Char),
      l.dropWhile p = c :: t → p c = false := by
  intro l
  induction l with
  | nil => intro c t h; exact absurd h (by simp)
  | cons a l ih =>
    intro c t h
    cases pa : p a with
    | true =>
      rw [List.dropWhile_cons_of_pos pa] at h
      exact ih c t h
    | false =>
      rw [List.dropWhile_cons_of_neg (by simp [pa])] at h
      obtain ⟨h1, -⟩ := List.cons.inj h
      rw [← h1]
      exact pa

/-- When a list is not exhausted by `takeWhile`, appending to it does not
change the split point. -/
theorem takeWhile_append_stop (p : Char → Bool) :
    ∀ (a b : List Char), a.dropWhile p ≠ [] →
      (a ++ b).takeWhile p = a.takeWhile p ∧
      (a ++ b).dropWhile p = a.dropWhile p ++ b := by
  intro a
  induction a with
  | nil => intro b h; exact absurd rfl h
  | cons c t ih =>
    intro b h
    cases pc : p c with
    | true =>
      rw [List.dropWhile_cons_of_pos pc] at h
      have := ih b h
      constructor
      · rw [List.cons_append, List.takeWhile_cons_of_pos pc,
          List.takeWhile_cons_of_pos pc, this.1]
      · rw [List.cons_append, List.dropWhile_cons_of_pos pc,
          List.dropWhile_cons_of_pos pc, this.2]
    | false =>
      constructor
      · rw [List.cons_append, List.takeWhile_cons_of_neg (by simp [pc]),
          List.takeWhile_cons_of_neg (by simp [pc])]
      · rw [List.cons_append, List.dropWhile_cons_of_neg (by simp [pc]),
          List.dropWhile_cons_of_neg (by simp [pc]), List.cons_append]

/-- One step of the cell regex after the literal `/Y`, one space and the
opening parenthesis. -/
theorem matchYCell_sp_paren (X : List Char) :
    matchYCell ('/' :: 'Y' :: ' ' :: '(' :: X) =
      (if X.takeWhile isCellChar = [] then none
       else
         match X.dropWhile isCellChar with
         | ')' :: r5 => some ('/' :: 'Y' :: ' ' :: '(' ::
             (X.takeWhile isCellChar ++ [')']), X.takeWhile isCellChar, r5)
         | _ => none) := rfl

/-- C10: the cell scanner accepts only `/Y`, at least one whitespace, then a
parenthesised run of uppercase letters, digits and underscores.  An
occurrence `/Y(CELL)` with no whitespace never matches; a parenthesised
name containing a lowercase letter never matches; and a text whose only
candidate occurrences are of these two forms contributes 0 to `logicDepth`
and `cellTypes`. -/
theorem c10_cell_name_charset :
    (∀ r : List Char, matchYCell ('/' :: 'Y' :: '(' :: r) = none) ∧
    (∀ nm r : List Char,
      (∀ c ∈ nm, isCellChar c = true ∨ isLowerAlpha c = true) →
      (∃ c ∈ nm, isLowerAlpha c = true) →
      matchYCell ('/' :: 'Y' :: ' ' :: '(' :: (nm ++ ')' :: r)) = none) ∧
    (analyzePath "a /Y(AOI22X1_RVT) b /Y (nandx1) c").logicDepth = 0 ∧
    (analyzePath "a /Y(AOI22X1_RVT) b /Y (nandx1) c").cellTypes = 0 := by
  refine ⟨fun r => rfl, ?_, rfl, rfl⟩
  intro nm r hall hex
  have hd : nm.dropWhile isCellChar ≠ [] := by
    intro hnil
    obtain ⟨c, hc, hlow⟩ := hex
    have : c ∈ nm.takeWhile isCellChar := by
      have := List.takeWhile_append_dropWhile isCellChar nm
      rw [hnil, List.append_nil] at this
      rw [this]
      exact hc
    exact absurd (List.mem_takeWhile_imp this) (by simp [isCellChar_of_lower c hlow])
  obtain ⟨d, q, hdq⟩ : ∃ d q, nm.dropWhile isCellChar = d :: q := by
    cases hx : nm.dropWhile isCellChar with
    | nil => exact absurd hx hd
    | cons d q => exact ⟨d, q, rfl⟩
  have hdfalse : isCellChar d = false := dropWhile_head_false isCellChar nm d q hdq
  have hdmem : d ∈ nm :=
    (List.dropWhile_sublist isCellChar).subset (by rw [hdq]; exact List.mem_cons_self d q)
  have hdlow : isLowerAlpha d = true := by
    rcases hall d hdmem with h1 | h1
    · rw [h1] at hdfalse
      exact Bool.noConfusion hdfalse
    · exact h1
  have hdne : d ≠ ')' := by
    intro he
    subst he
    exact absurd hdlow (by decide)
  rw [matchYCell_sp_paren]
  have htk := takeWhile_append_stop isCellChar nm (')' :: r) hd
  rw [htk.2, hdq]
  by_cases hk : (nm ++ ')' :: r).takeWhile isCellChar = []
  · rw [if_pos hk]
  · rw [if_neg hk]
    simp only [List.cons_append]
    split
    case _ r5 heq => exact absurd (List.cons.inj heq).1 hdne
    rfl

/-- C10 witness: a lowercase parenthesised name is rejected by the scanner. -/
theorem c10_cell_name_charset_witness :
    matchYCell ('/' :: 'Y' :: ' ' :: '(' :: ("nand2".data ++ ')' :: [])) = none :=
  c10_cell_name_charset.2.1 "nand2".data [] (by decide) (by decide)

end Ipo0
